import Mathlib

set_option maxHeartbeats 1000000

/-! Shallow embedding of `unzip_all.py`: the archive classifier, the archive
extractor, the per-archive processor `handle_archive_file`, and the
breadth-first remote walk `process_path_recursively`, together with proofs of
the specification claims. Remote calls and the local filesystem are modelled
as an explicit `World` of deterministic oracles; an exception raised by an
oracle is an `Option`/`Except` error value, and an effect trace records the
download / extraction / directory-creation / upload attempts the script
makes. -/

/-- Python `s.lower()` (ASCII letters), applied characterwise. -/
def lowerStr (s : String) : String := ⟨s.data.map Char.toLower⟩

/-- Python `s.endswith(t)`. -/
def py_endswith (s t : String) : Bool := t.data.isSuffixOf s.data

/-- Python slice `s[:n]` for `0 ≤ n ≤ len(s)`. -/
def strTake (s : String) (n : Nat) : String := ⟨s.data.take n⟩

/-- POSIX `os.path.join` on two components, as the script uses it
(`os.path.join(a, b)` followed by the script's `.replace` of backslashes is
the identity on POSIX paths). -/
def pjoin (a b : String) : String :=
  if b.data.head? = some '/' then b
  else if a = "" then b
  else if a.data.getLast? = some '/' then a ++ b
  else a ++ "/" ++ b

/-- `ARCHIVE_EXTENSIONS` from the script (a Python set literal, given here as
a list; the `any`-style membership tests below do not depend on the order). -/
def ARCHIVE_EXTENSIONS : List String :=
  [".zip", ".tar", ".tar.gz", ".tar.bz2", ".tgz", ".tbz2"]

/-- `sorted(ARCHIVE_EXTENSIONS, key=len, reverse=True)` as computed inside
`get_archive_folder_name`. Equal-length extensions can never both match one
filename (a string has a unique last-`k`-characters), so the relative order
of the ties is irrelevant. -/
def sortedExtensions : List String :=
  [".tar.bz2", ".tar.gz", ".tbz2", ".zip", ".tar", ".tgz"]

/-- `is_archive_file` from the script: the lowercased filename ends with one
of the recognized extensions. -/
def is_archive_file (filename : String) : Bool :=
  ARCHIVE_EXTENSIONS.any (fun ext => py_endswith (lowerStr filename) ext)

/-- `get_archive_folder_name` from the script: strip the first (hence
longest, by the sort) extension whose lowercased-suffix test matches,
otherwise append `"_extracted"`. The strip `filename[:-len(ext)]` acts on the
original, non-lowercased filename. -/
def get_archive_folder_name (filename : String) : String :=
  match sortedExtensions.find? (fun ext => py_endswith (lowerStr filename) ext) with
  | some ext => strTake filename (filename.length - ext.length)
  | none => filename ++ "_extracted"

/-- The tuple dispatch
`file_path.endswith(('.tar', '.tar.gz', '.tar.bz2', '.tgz', '.tbz2'))` inside
`extract_archive` (case-sensitive, unlike the classifier). -/
def tarDispatch (file_path : String) : Bool :=
  py_endswith file_path ".tar" || py_endswith file_path ".tar.gz" ||
  py_endswith file_path ".tar.bz2" || py_endswith file_path ".tgz" ||
  py_endswith file_path ".tbz2"

/-- One remote directory entry: the `{'name': ..., 'type': ...}` dictionaries
returned by `repo.list_dir`. -/
structure Entry where
  name : String
  type : String
deriving DecidableEq

/-- A local directory tree as `os.walk` sees it after extraction: named
subdirectories and plain file names. -/
inductive LocalTree where
  | node (dirs : List (String × LocalTree)) (files : List String)

def LocalTree.dirs : LocalTree → List (String × LocalTree)
  | .node d _ => d

def LocalTree.files : LocalTree → List String
  | .node _ f => f

/-- Observable side effects of the processor: a download attempt (remote
path, local path), an extraction attempt (local archive, destination), a
remote directory-creation attempt, and an upload attempt (remote parent
directory, file name). -/
inductive Eff where
  | download (remote loc : String)
  | extract (loc dest : String)
  | createDir (remote : String)
  | upload (remoteDir fileName : String)
deriving DecidableEq

/-- The deterministic environment: results of every remote call and local
filesystem operation the script performs. A `none`/`.error` result models
the corresponding Python exception. -/
structure World where
  authOk : Bool
  getRepoOk : Bool
  getDetailsOk : Bool
  listDir : String → Option (List Entry)
  downloadOk : String → Bool
  zipExtract : String → String → Except String Unit
  tarExtract : String → String → Except String Unit
  makedirsOk : String → Bool
  createDirOk : String → Bool
  localTree : String → LocalTree

/-- `extract_archive` from the script. The Python `try`/`except Exception`
around the whole body means any codec failure becomes `False`; the function
itself always returns a boolean (it cannot raise), which the `Bool` return
type of this embedding makes structural. A path matching neither dispatch
case falls through the `if`/`elif` and hits `return True` with no extraction
performed. -/
def extract_archive (w : World) (file_path extract_to : String) : Bool :=
  if py_endswith file_path ".zip" then
    match w.zipExtract file_path extract_to with
    | .ok _ => true
    | .error _ => false
  else if tarDispatch file_path then
    match w.tarExtract file_path extract_to with
    | .ok _ => true
    | .error _ => false
  else true

/-- The relative-path string `os.path.relpath(root, extract_dir)` yields for
a non-root walk position: its components joined with `/`. -/
def relString : List String → String
  | [] => ""
  | [c] => c
  | c :: rest => c ++ "/" ++ relString rest

/-- The upload directory the script computes for one `os.walk` root:
`target_seafile_dir` itself when `rel_path == '.'`, else
`os.path.join(target_seafile_dir, rel_path)`. -/
def updirFor (target : String) (rel : List String) : String :=
  match rel with
  | [] => target
  | _ => pjoin target (relString rel)

mutual

/-- The `os.walk` upload loop of `handle_archive_file` (lines 211-239): for
each walked root, create each subdirectory remotely, upload each file, then
recurse (top-down walk order). -/
def walkEff (target : String) (rel : List String) : LocalTree → List Eff
  | .node dirs files =>
    (dirs.map (fun d => Eff.createDir (pjoin (updirFor target rel) d.1)))
      ++ (files.map (fun f => Eff.upload (updirFor target rel) f))
      ++ walkEffChildren target rel dirs

def walkEffChildren (target : String) (rel : List String) :
    List (String × LocalTree) → List Eff
  | [] => []
  | (n, sub) :: rest =>
    walkEff target (rel ++ [n]) sub ++ walkEffChildren target rel rest

end

mutual

/-- Relative paths (as component lists) of all strict-descendant directories
of a local tree. -/
def dirRels : LocalTree → List (List String)
  | .node dirs _ => dirRelsChildren dirs

def dirRelsChildren : List (String × LocalTree) → List (List String)
  | [] => []
  | (n, sub) :: rest =>
    [n] :: ((dirRels sub).map (fun r => n :: r) ++ dirRelsChildren rest)

end

mutual

/-- All files of a local tree, as pairs of the containing directory's
relative path (component list) and the file name. -/
def filePairs : LocalTree → List (List String × String)
  | .node dirs files => files.map (fun f => ([], f)) ++ filePairsChildren dirs

def filePairsChildren : List (String × LocalTree) → List (List String × String)
  | [] => []
  | (n, sub) :: rest =>
    (filePairs sub).map (fun q => (n :: q.1, q.2)) ++ filePairsChildren rest

end

/-- A real directory-entry name: nonempty and free of path separators. -/
def goodName (s : String) : Bool :=
  (s != "") && s.data.all (fun c => c != '/')

mutual

/-- Every directory and file name in the tree is a real entry name. -/
def wfTree : LocalTree → Bool
  | .node dirs files =>
    files.all goodName && dirs.all (fun d => goodName d.1) && wfChildren dirs

def wfChildren : List (String × LocalTree) → Bool
  | [] => true
  | (_, sub) :: rest => wfTree sub && wfChildren rest

end

/-- The local download destination `os.path.join(temp_dir, archive_name)`
computed at line 183 of the script: it depends on the archive's base name
only, not on the remote directory the archive came from. -/
def archiveLocalPath (temp_dir archive_name : String) : String :=
  pjoin temp_dir archive_name

/-- `handle_archive_file` from the script, as a trace-producing function.
`.error ()` models the one uncaught exception site inside it
(`os.makedirs`, line 193); everything else is caught by the script's
`try`/`except` blocks and degrades to an early `.ok` return. -/
def handle_archive_file (w : World) (seafile_dir archive_name temp_dir : String) :
    Except Unit (List Eff) :=
  let archive_full_path := pjoin seafile_dir archive_name
  let folder_name := get_archive_folder_name archive_name
  let skip :=
    match w.listDir seafile_dir with
    | some items => (items.map Entry.name).contains folder_name
    | none => false
  if skip then .ok []
  else
    let archive_local_path := archiveLocalPath temp_dir archive_name
    if w.downloadOk archive_full_path = false then
      .ok [Eff.download archive_full_path archive_local_path]
    else
      let extract_dir := pjoin temp_dir folder_name
      if w.makedirsOk extract_dir = false then .error ()
      else if extract_archive w archive_local_path extract_dir then
        let target_seafile_dir := pjoin seafile_dir folder_name
        if w.createDirOk target_seafile_dir = false then
          .ok [Eff.download archive_full_path archive_local_path,
               Eff.extract archive_local_path extract_dir,
               Eff.createDir target_seafile_dir]
        else
          .ok ([Eff.download archive_full_path archive_local_path,
                Eff.extract archive_local_path extract_dir,
                Eff.createDir target_seafile_dir]
               ++ walkEff target_seafile_dir [] (w.localTree extract_dir))
      else
        .ok [Eff.download archive_full_path archive_local_path,
             Eff.extract archive_local_path extract_dir]

/-- Result of the walk loop: listing attempts in order, final visited set,
accumulated effects, and whether an uncaught exception escaped. -/
structure LoopResult where
  listed : List String
  visited : List String
  effs : List Eff
  err : Bool
deriving DecidableEq

/-- The `for archive_item in archives_in_dir` loop: handle each archive in
order, stopping if `handle_archive_file` raises. -/
def runArchives (w : World) (dir : String) (names : List String) (temp_dir : String) :
    List Eff × Bool :=
  match names with
  | [] => ([], false)
  | n :: rest =>
    match handle_archive_file w dir n temp_dir with
    | .error _ => ([], true)
    | .ok effs =>
      let r := runArchives w dir rest temp_dir
      (effs ++ r.1, r.2)

/-- The partition `item['type'] == 'file' and is_archive_file(item['name'])`
of a listing. -/
def archiveNames (items : List Entry) : List String :=
  (items.filter (fun i => i.type == "file" && is_archive_file i.name)).map Entry.name

/-- The partition `item['type'] == 'dir'` of a listing, turned into full
child paths as the script enqueues them. -/
def subdirPaths (p : String) (items : List Entry) : List String :=
  (items.filter (fun i => i.type == "dir")).map (fun i => pjoin p i.name)

/-- The `while queue` loop of `process_path_recursively`: pop the queue head,
skip it when already visited, otherwise mark visited, attempt the listing
(a failure is logged and the subtree skipped), handle the archives, and
enqueue the subdirectories at the tail. Fuel bounds the number of
iterations; every claim below is proved for all fuel values. -/
def processLoop (w : World) (temp_dir : String) :
    Nat → List String → List String → LoopResult
  | 0, _, visited => ⟨[], visited, [], false⟩
  | _ + 1, [], visited => ⟨[], visited, [], false⟩
  | fuel + 1, p :: rest, visited =>
    if p ∈ visited then processLoop w temp_dir fuel rest visited
    else
      match w.listDir p with
      | none =>
        let r := processLoop w temp_dir fuel rest (p :: visited)
        ⟨p :: r.listed, r.visited, r.effs, r.err⟩
      | some items =>
        let ra := runArchives w p (archiveNames items) temp_dir
        if ra.2 then ⟨[p], p :: visited, ra.1, true⟩
        else
          let r := processLoop w temp_dir fuel (rest ++ subdirPaths p items) (p :: visited)
          ⟨p :: r.listed, r.visited, ra.1 ++ r.effs, r.err⟩

/-- `process_path_recursively` from the script: the two remote calls before
the loop (`get_repo`, `get_repo_details`, lines 250-251) are not inside any
`try`, so their failure propagates (`.error`), as does an uncaught exception
from the loop body. -/
def process_path_recursively (w : World) (path temp_dir : String) (fuel : Nat) :
    Except Unit LoopResult :=
  if w.getRepoOk = false then .error ()
  else if w.getDetailsOk = false then .error ()
  else
    let r := processLoop w temp_dir fuel [path] []
    if r.err then .error () else .ok r

/-- The exit code of `main` for a fixed selector outcome `(repo, path)`:
`sys.exit(1)` on authentication failure; a Python process dying of an
uncaught exception exits with code 1; otherwise the script falls off the end
of `main` with exit code 0. -/
def mainExit (w : World) (path temp_dir : String) (fuel : Nat) : Nat :=
  if w.authOk = false then 1
  else
    match process_path_recursively w path temp_dir fuel with
    | .error _ => 1
    | .ok _ => 0

/-! ### String helper lemmas -/

theorem mk_append (l₁ l₂ : List Char) : (⟨l₁⟩ : String) ++ ⟨l₂⟩ = ⟨l₁ ++ l₂⟩ := rfl

theorem strData_append (a b : String) : (a ++ b).data = a.data ++ b.data := by
  cases a; cases b; rfl

theorem strLength_data (s : String) : s.length = s.data.length := by
  cases s; rfl

theorem lowerStr_append (a b : String) :
    lowerStr (a ++ b) = lowerStr a ++ lowerStr b := by
  cases a with
  | mk l₁ =>
    cases b with
    | mk l₂ => simp [lowerStr, mk_append]

theorem py_endswith_iff (s t : String) : py_endswith s t = true ↔ t.data <:+ s.data := by
  unfold py_endswith
  exact List.isSuffixOf_iff_suffix

theorem strTake_append_length (t e : String) :
    strTake (t ++ e) ((t ++ e).length - e.length) = t := by
  cases t with
  | mk l₁ =>
    cases e with
    | mk l₂ =>
      rw [mk_append]
      show String.mk ((l₁ ++ l₂).take ((⟨l₁ ++ l₂⟩ : String).length - (⟨l₂⟩ : String).length)) = ⟨l₁⟩
      have h1 : (⟨l₁ ++ l₂⟩ : String).length - (⟨l₂⟩ : String).length = l₁.length := by
        simp [strLength_data]
      rw [h1, List.take_left]

/-! ### Classifier lemmas -/

theorem sortedExtensions_perm : sortedExtensions.Perm ARCHIVE_EXTENSIONS := by decide

theorem mem_sorted_of_mem {e : String} (h : e ∈ ARCHIVE_EXTENSIONS) :
    e ∈ sortedExtensions := sortedExtensions_perm.mem_iff.mpr h

/-- No recognized extension is a suffix of a different recognized extension,
so two extensions that are suffixes of the same string coincide. -/
theorem ext_suffix_unique :
    ∀ e₁ ∈ sortedExtensions, ∀ e₂ ∈ sortedExtensions,
      e₁.data.isSuffixOf e₂.data = true → e₁ = e₂ := by decide

theorem match_unique {l : List Char} {e₁ e₂ : String}
    (h₁ : e₁ ∈ sortedExtensions) (h₂ : e₂ ∈ sortedExtensions)
    (m₁ : e₁.data <:+ l) (m₂ : e₂.data <:+ l) : e₁ = e₂ := by
  rcases Nat.le_total e₁.data.length e₂.data.length with h | h
  · exact ext_suffix_unique e₁ h₁ e₂ h₂
      (List.isSuffixOf_iff_suffix.mpr (List.suffix_of_suffix_length_le m₁ m₂ h))
  · exact (ext_suffix_unique e₂ h₂ e₁ h₁
      (List.isSuffixOf_iff_suffix.mpr (List.suffix_of_suffix_length_le m₂ m₁ h))).symm

theorem find_ext {f e : String} (he : e ∈ sortedExtensions)
    (hm : py_endswith (lowerStr f) e = true) :
    sortedExtensions.find? (fun x => py_endswith (lowerStr f) x) = some e := by
  cases hfind : sortedExtensions.find? (fun x => py_endswith (lowerStr f) x) with
  | none => exact absurd hm (by simpa using List.find?_eq_none.mp hfind e he)
  | some e₂ =>
    have hp : py_endswith (lowerStr f) e₂ = true := List.find?_some hfind
    have hmem : e₂ ∈ sortedExtensions := List.mem_of_find?_eq_some hfind
    exact congrArg some
      (match_unique hmem he ((py_endswith_iff _ _).mp hp) ((py_endswith_iff _ _).mp hm))

theorem gafn_eq_strip {g e : String} (he : e ∈ sortedExtensions)
    (hm : py_endswith (lowerStr g) e = true) :
    get_archive_folder_name g = strTake g (g.length - e.length) := by
  unfold get_archive_folder_name
  rw [find_ext he hm]

/-! ### Claim C6 -/

/-- C6: for every filename whose lowercased form ends with at least one
recognized archive extension, `get_archive_folder_name` returns the filename
with its longest matching extension removed (a prefix of the original,
non-lowercased filename); for every filename matching no recognized
extension it returns the filename with `"_extracted"` appended. -/
theorem c6_folder_name_strips_longest_suffix (f : String) :
    (∀ e, e ∈ ARCHIVE_EXTENSIONS → py_endswith (lowerStr f) e = true →
      (∀ e₂, e₂ ∈ ARCHIVE_EXTENSIONS → py_endswith (lowerStr f) e₂ = true →
        e₂.length ≤ e.length) →
      get_archive_folder_name f = strTake f (f.length - e.length))
    ∧ ((∀ e, e ∈ ARCHIVE_EXTENSIONS → py_endswith (lowerStr f) e = false) →
      get_archive_folder_name f = f ++ "_extracted") := by
  constructor
  · intro e he hm _
    exact gafn_eq_strip (mem_sorted_of_mem he) hm
  · intro h
    unfold get_archive_folder_name
    have hn : sortedExtensions.find? (fun x => py_endswith (lowerStr f) x) = none :=
      List.find?_eq_none.mpr (fun x hx => by
        simp [h x (sortedExtensions_perm.mem_iff.mp hx)])
    rw [hn]

theorem c6_folder_name_strips_longest_suffix_witness :
    (get_archive_folder_name "A.TAR.GZ" =
      strTake "A.TAR.GZ" ("A.TAR.GZ".length - ".tar.gz".length))
    ∧ get_archive_folder_name "notes.txt" = "notes.txt" ++ "_extracted" :=
  ⟨(c6_folder_name_strips_longest_suffix "A.TAR.GZ").1 ".tar.gz" (by decide)
      (by decide) (by decide),
   (c6_folder_name_strips_longest_suffix "notes.txt").2 (by decide)⟩

/-! ### Claim C8 -/

/-- C8: for every filename recognized as an archive, with `e` its longest
(equivalently, unique) matching recognized extension, re-applying the
classifier to its own output concatenated with `e` returns the same output:
the classifier is idempotent in the sense of the specification. -/
theorem c8_folder_name_idempotent (f e : String) (he : e ∈ ARCHIVE_EXTENSIONS)
    (_hm : py_endswith (lowerStr f) e = true)
    (_hl : ∀ e₂, e₂ ∈ ARCHIVE_EXTENSIONS → py_endswith (lowerStr f) e₂ = true →
      e₂.length ≤ e.length) :
    get_archive_folder_name (get_archive_folder_name f ++ e) =
      get_archive_folder_name f := by
  have he' : e ∈ sortedExtensions := mem_sorted_of_mem he
  have hlow : lowerStr e = e := by
    have h : ∀ x ∈ sortedExtensions, lowerStr x = x := by decide
    exact h e he'
  have hm2 : py_endswith (lowerStr (get_archive_folder_name f ++ e)) e = true := by
    rw [py_endswith_iff, lowerStr_append, hlow, strData_append]
    exact List.suffix_append _ _
  rw [gafn_eq_strip he' hm2, strTake_append_length]

theorem c8_folder_name_idempotent_witness :
    get_archive_folder_name (get_archive_folder_name "pkg.tar.gz" ++ ".tar.gz") =
      get_archive_folder_name "pkg.tar.gz" :=
  c8_folder_name_idempotent "pkg.tar.gz" ".tar.gz" (by decide) (by decide) (by decide)

/-! ### Example worlds used by witnesses and counterexamples -/

/-- An all-permissive world: every remote call succeeds, every listing is
empty, extraction produces an empty tree. -/
def wAll : World where
  authOk := true
  getRepoOk := true
  getDetailsOk := true
  listDir := fun _ => some []
  downloadOk := fun _ => true
  zipExtract := fun _ _ => .ok ()
  tarExtract := fun _ _ => .ok ()
  makedirsOk := fun _ => true
  createDirOk := fun _ => true
  localTree := fun _ => .node [] []

def wSkip : World := { wAll with listDir := fun _ => some [⟨"report", "dir"⟩] }

def wBadZip : World := { wAll with zipExtract := fun _ _ => .error "bad zip" }

def wNoCreate : World := { wAll with createDirOk := fun _ => false }

/-! ### Claim C1 -/

/-- C1: when the fresh listing of the remote directory taken at the start of
`handle_archive_file` succeeds and contains an entry named
`get_archive_folder_name` of the archive's name, the archive is skipped
entirely: the effect trace is empty — no download, no extraction, no
directory creation, no upload. -/
theorem c1_skip_when_target_exists (w : World) (d n t : String) (items : List Entry)
    (hlist : w.listDir d = some items)
    (hmem : (items.map Entry.name).contains (get_archive_folder_name n) = true) :
    handle_archive_file w d n t = .ok [] := by
  unfold handle_archive_file
  rw [hlist]
  simp [hmem]
  intro h
  exfalso
  simp at hmem
  obtain ⟨x, hx, hxe⟩ := hmem
  exact h x hx hxe

theorem c1_skip_when_target_exists_witness :
    handle_archive_file wSkip "/data" "report.zip" "/tmp" = .ok [] :=
  c1_skip_when_target_exists wSkip "/data" "report.zip" "/tmp"
    [⟨"report", "dir"⟩] rfl (by decide)

/-! ### Claim C3 -/

/-- C3: `extract_archive` is a total boolean-valued function — the script's
whole-body `try`/`except Exception` means a raised codec exception (corrupt
archive, unsupported format, I/O error, modelled as an `.error` oracle
result) never escapes — and whenever the codec selected by the dispatch
fails, the result is `false`, never `true`. -/
theorem c3_extract_failure_returns_false (w : World) (fp dest : String) :
    (∀ e, py_endswith fp ".zip" = true → w.zipExtract fp dest = .error e →
      extract_archive w fp dest = false)
    ∧ (∀ e, py_endswith fp ".zip" = false → tarDispatch fp = true →
      w.tarExtract fp dest = .error e → extract_archive w fp dest = false) := by
  constructor
  · intro e hz herr
    simp [extract_archive, hz, herr]
  · intro e hz ht herr
    simp [extract_archive, hz, ht, herr]

theorem c3_extract_failure_returns_false_witness :
    extract_archive wBadZip "/tmp/a.zip" "/tmp/a" = false :=
  (c3_extract_failure_returns_false wBadZip "/tmp/a.zip" "/tmp/a").1 "bad zip"
    (by decide) rfl

/-! ### Claim C4 -/

/-- C4 counterexample: two distinct archives — the same base name `a.zip` in
the two different remote directories `/x` and `/y` — are both downloaded to
the one local path `/tmp/a.zip`: the download destination
`os.path.join(temp_dir, archive_name)` depends on the base name only, so the
claimed per-archive uniqueness fails. -/
theorem c4_counterexample :
    (("/x", "a.zip") ≠ (("/y", "a.zip") : String × String))
    ∧ handle_archive_file wAll "/x" "a.zip" "/tmp" =
      .ok [Eff.download "/x/a.zip" "/tmp/a.zip",
           Eff.extract "/tmp/a.zip" "/tmp/a",
           Eff.createDir "/x/a"]
    ∧ handle_archive_file wAll "/y" "a.zip" "/tmp" =
      .ok [Eff.download "/y/a.zip" "/tmp/a.zip",
           Eff.extract "/tmp/a.zip" "/tmp/a",
           Eff.createDir "/y/a"] :=
  ⟨by decide, rfl, rfl⟩

/-- Left cancellation for string concatenation. -/
theorem strAppend_cancel_left {a b c : String} (h : a ++ b = a ++ c) : b = c := by
  cases a with
  | mk la =>
    cases b with
    | mk lb =>
      cases c with
      | mk lc =>
        rw [mk_append, mk_append] at h
        have hd : la ++ lb = la ++ lc := congrArg String.data h
        exact congrArg String.mk (List.append_cancel_left hd)

/-- C4 amended: the local download path is `pjoin temp_dir archive_name`,
so it is unique exactly per archive base name: archives with distinct names
(real entry names: nonempty, not beginning with a separator) get distinct
local paths, while archives with equal names collide regardless of their
remote directory. -/
theorem c4_local_path_unique_per_name (temp n₁ n₂ : String)
    (h₁ : n₁.data.head? ≠ some '/') (h₂ : n₂.data.head? ≠ some '/')
    (hne : n₁ ≠ n₂) :
    archiveLocalPath temp n₁ ≠ archiveLocalPath temp n₂ := by
  unfold archiveLocalPath pjoin
  rw [if_neg h₁, if_neg h₂]
  by_cases hempty : temp = ""
  · simpa [hempty] using hne
  · rw [if_neg hempty, if_neg hempty]
    by_cases hsl : temp.data.getLast? = some '/'
    · rw [if_pos hsl, if_pos hsl]
      intro h
      exact hne (strAppend_cancel_left h)
    · rw [if_neg hsl, if_neg hsl]
      intro h
      exact hne (strAppend_cancel_left h)

theorem c4_local_path_unique_per_name_witness :
    archiveLocalPath "/tmp" "a.zip" ≠ archiveLocalPath "/tmp" "b.zip" :=
  c4_local_path_unique_per_name "/tmp" "a.zip" "b.zip" (by decide) (by decide)
    (by decide)

/-! ### Claim C9 -/

/-- C9: for an archive whose extraction succeeded, if creating the remote
target directory fails, the upload phase is abandoned as a whole: the trace
of `handle_archive_file` contains no upload at all, and its only
directory-creation attempt is the target directory itself — nothing below
it. -/
theorem c9_create_target_failure_abandons_upload (w : World) (d n t : String)
    (tr : List Eff)
    (_hex : extract_archive w (archiveLocalPath t n)
      (pjoin t (get_archive_folder_name n)) = true)
    (hcd : w.createDirOk (pjoin d (get_archive_folder_name n)) = false)
    (hok : handle_archive_file w d n t = .ok tr) :
    (∀ p m, Eff.upload p m ∉ tr)
    ∧ (∀ p, Eff.createDir p ∈ tr → p = pjoin d (get_archive_folder_name n)) := by
  simp only [handle_archive_file] at hok
  split at hok
  · cases hok
    exact ⟨by simp, by simp⟩
  · split at hok
    · cases hok
      exact ⟨by simp, by simp⟩
    · split at hok
      · cases hok
      · cases hok
        refine ⟨by simp, ?_⟩
        intro p hp
        simp at hp
        exact hp

theorem c9_create_target_failure_abandons_upload_witness :
    (∀ p m, Eff.upload p m ∉
      [Eff.download "/data/a.zip" "/tmp/a.zip", Eff.extract "/tmp/a.zip" "/tmp/a",
       Eff.createDir "/data/a"])
    ∧ (∀ p, Eff.createDir p ∈
      [Eff.download "/data/a.zip" "/tmp/a.zip", Eff.extract "/tmp/a.zip" "/tmp/a",
       Eff.createDir "/data/a"] → p = pjoin "/data" (get_archive_folder_name "a.zip")) :=
  c9_create_target_failure_abandons_upload wNoCreate "/data" "a.zip" "/tmp"
    [Eff.download "/data/a.zip" "/tmp/a.zip", Eff.extract "/tmp/a.zip" "/tmp/a",
     Eff.createDir "/data/a"] (by decide) rfl rfl

/-! ### Claim C10 -/

/-- C10: a filename the classifier recognizes only through lowercasing, whose
actual local path matches neither case-sensitive dispatch branch of
`extract_archive`, makes `extract_archive` return `true` under every codec
oracle — nothing is extracted — and the processor then proceeds to create
the remote target directory (the local extraction directory having received
no content). -/
theorem c10_case_mismatch_extracts_nothing (w : World) (d n t : String)
    (items : List Entry)
    (_harc : is_archive_file n = true)
    (hz : py_endswith (archiveLocalPath t n) ".zip" = false)
    (ht : tarDispatch (archiveLocalPath t n) = false)
    (hlist : w.listDir d = some items)
    (hskip : (items.map Entry.name).contains (get_archive_folder_name n) = false)
    (hdl : w.downloadOk (pjoin d n) = true)
    (hmk : w.makedirsOk (pjoin t (get_archive_folder_name n)) = true)
    (hcd : w.createDirOk (pjoin d (get_archive_folder_name n)) = true) :
    (∀ w₂ : World, extract_archive w₂ (archiveLocalPath t n)
        (pjoin t (get_archive_folder_name n)) = true)
    ∧ handle_archive_file w d n t =
      .ok ([Eff.download (pjoin d n) (archiveLocalPath t n),
            Eff.extract (archiveLocalPath t n) (pjoin t (get_archive_folder_name n)),
            Eff.createDir (pjoin d (get_archive_folder_name n))]
           ++ walkEff (pjoin d (get_archive_folder_name n)) []
                (w.localTree (pjoin t (get_archive_folder_name n)))) := by
  have hex : ∀ w₂ : World, extract_archive w₂ (archiveLocalPath t n)
      (pjoin t (get_archive_folder_name n)) = true := by
    intro w₂
    simp [extract_archive, hz, ht]
  refine ⟨hex, ?_⟩
  have hskip2 : ∀ x ∈ items, ¬x.name = get_archive_folder_name n := by
    simpa using hskip
  unfold handle_archive_file
  rw [hlist]
  simp [hdl, hmk, hcd, hex w]
  exact hskip2

theorem c10_case_mismatch_extracts_nothing_witness :
    (∀ w₂ : World, extract_archive w₂ (archiveLocalPath "/tmp" "a.ZIP")
        (pjoin "/tmp" (get_archive_folder_name "a.ZIP")) = true)
    ∧ handle_archive_file wAll "/data" "a.ZIP" "/tmp" =
      .ok ([Eff.download (pjoin "/data" "a.ZIP") (archiveLocalPath "/tmp" "a.ZIP"),
            Eff.extract (archiveLocalPath "/tmp" "a.ZIP")
              (pjoin "/tmp" (get_archive_folder_name "a.ZIP")),
            Eff.createDir (pjoin "/data" (get_archive_folder_name "a.ZIP"))]
           ++ walkEff (pjoin "/data" (get_archive_folder_name "a.ZIP")) []
                (wAll.localTree (pjoin "/tmp" (get_archive_folder_name "a.ZIP")))) :=
  c10_case_mismatch_extracts_nothing wAll "/data" "a.ZIP" "/tmp" [] (by decide)
    (by decide) (by decide) rfl (by decide) rfl rfl rfl

/-! ### Claim C2 -/

/-- Invariant of the walk loop: the listing trace never repeats a path, only
contains paths outside the starting visited set, and the visited set only
grows. -/
theorem processLoop_invariant (w : World) (temp : String) :
    ∀ (fuel : Nat) (queue visited : List String),
      (processLoop w temp fuel queue visited).listed.Nodup
      ∧ (∀ p, p ∈ (processLoop w temp fuel queue visited).listed → p ∉ visited)
      ∧ (∀ p, p ∈ visited → p ∈ (processLoop w temp fuel queue visited).visited) := by
  intro fuel
  induction fuel with
  | zero => intro queue visited; simp [processLoop]
  | succ fuel ih =>
    intro queue visited
    cases queue with
    | nil => simp [processLoop]
    | cons p rest =>
      by_cases hp : p ∈ visited
      · simpa [processLoop, hp] using ih rest visited
      · cases hl : w.listDir p with
        | none =>
          have h := ih rest (p :: visited)
          simp only [processLoop, hl, if_neg hp]
          refine ⟨?_, ?_, ?_⟩
          · exact List.nodup_cons.mpr
              ⟨fun hm => (h.2.1 p hm) (List.mem_cons_self p visited), h.1⟩
          · intro q hq
            rcases List.mem_cons.mp hq with rfl | hq2
            · exact hp
            · exact fun hqv => (h.2.1 q hq2) (List.mem_cons_of_mem _ hqv)
          · intro q hq
            exact h.2.2 q (List.mem_cons_of_mem _ hq)
        | some items =>
          cases hra : (runArchives w p (archiveNames items) temp).2 with
          | true =>
            simp only [processLoop, hl, if_neg hp, hra]
            refine ⟨by simp, ?_, ?_⟩
            · intro q hq
              simp at hq
              subst hq
              exact hp
            · intro q hq
              exact List.mem_cons_of_mem _ hq
          | false =>
            have h := ih (rest ++ subdirPaths p items) (p :: visited)
            simp only [processLoop, hl, if_neg hp, hra]
            refine ⟨?_, ?_, ?_⟩
            · exact List.nodup_cons.mpr
                ⟨fun hm => (h.2.1 p hm) (List.mem_cons_self p visited), h.1⟩
            · intro q hq
              rcases List.mem_cons.mp hq with rfl | hq2
              · exact hp
              · exact fun hqv => (h.2.1 q hq2) (List.mem_cons_of_mem _ hqv)
            · intro q hq
              exact h.2.2 q (List.mem_cons_of_mem _ hq)

/-- C2: for every deterministic listing oracle, every fuel bound, every
starting queue and visited set: the walk of `process_path_recursively` lists
each remote directory path at most once (the listing trace is duplicate
free and disjoint from the incoming visited set, which only grows), and the
queue is FIFO — its head is the first path listed whenever it is unvisited
(dequeue at the head; `subdirPaths` are enqueued at the tail by
construction). -/
theorem c2_walk_lists_each_path_at_most_once (w : World) (temp : String)
    (fuel : Nat) (queue visited : List String) :
    ((processLoop w temp fuel queue visited).listed.Nodup
    ∧ (∀ p, p ∈ (processLoop w temp fuel queue visited).listed → p ∉ visited)
    ∧ (∀ p, p ∈ visited → p ∈ (processLoop w temp fuel queue visited).visited))
    ∧ (∀ p rest, p ∉ visited →
        (processLoop w temp (fuel + 1) (p :: rest) visited).listed.head? = some p) := by
  refine ⟨processLoop_invariant w temp fuel queue visited, ?_⟩
  intro p rest hp
  cases hl : w.listDir p with
  | none => simp [processLoop, hp, hl]
  | some items =>
    cases hra : (runArchives w p (archiveNames items) temp).2 with
    | true => simp [processLoop, hp, hl, hra]
    | false => simp [processLoop, hp, hl, hra]

/-- A world with a duplicated subdirectory reference: the root listing names
the same child twice, so the child is enqueued twice. -/
def wDup : World :=
  { wAll with listDir := fun p =>
      if p = "/" then some [⟨"a", "dir"⟩, ⟨"a", "dir"⟩]
      else if p = "/a" then some [] else none }

theorem c2_walk_lists_each_path_at_most_once_witness :
    (((processLoop wDup "/tmp" 6 ["/"] []).listed.Nodup
    ∧ (∀ p, p ∈ (processLoop wDup "/tmp" 6 ["/"] []).listed → p ∉ ([] : List String))
    ∧ (∀ p, p ∈ ([] : List String) → p ∈ (processLoop wDup "/tmp" 6 ["/"] []).visited))
    ∧ (∀ p rest, p ∉ ([] : List String) →
        (processLoop wDup "/tmp" (6 + 1) (p :: rest) []).listed.head? = some p)) :=
  c2_walk_lists_each_path_at_most_once wDup "/tmp" 6 ["/"] []

/-! ### Claim C5 -/

def wNoDetails : World := { wAll with getDetailsOk := false }

/-- C5 counterexample: a run in which authentication succeeds and yet the
process terminates with exit code 1 — `repo.get_repo_details()` (line 251)
is called outside any `try`, so its failure after successful authentication
escapes `main` and kills the process, contradicting both "nothing below the
authentication step terminates the process" and "exit code 1 only on
authentication failure". -/
theorem c5_counterexample :
    wNoDetails.authOk = true ∧ mainExit wNoDetails "/" "/tmp" 3 = 1 :=
  ⟨rfl, rfl⟩

/-- `handle_archive_file` raises only at the `os.makedirs` call: under a
local filesystem whose directory creation always succeeds it always returns
normally. -/
theorem handle_no_raise (w : World) (hm : ∀ p, w.makedirsOk p = true)
    (d n t : String) : ∃ effs, handle_archive_file w d n t = .ok effs := by
  unfold handle_archive_file
  split <;> dsimp only <;> split_ifs <;> first
    | exact ⟨_, rfl⟩
    | simp_all

theorem runArchives_no_err (w : World) (hm : ∀ p, w.makedirsOk p = true)
    (d temp : String) :
    ∀ names, (runArchives w d names temp).2 = false := by
  intro names
  induction names with
  | nil => rfl
  | cons n rest ih =>
    obtain ⟨effs, he⟩ := handle_no_raise w hm d n temp
    simp [runArchives, he, ih]

theorem processLoop_no_err (w : World) (hm : ∀ p, w.makedirsOk p = true)
    (temp : String) :
    ∀ fuel queue visited, (processLoop w temp fuel queue visited).err = false := by
  intro fuel
  induction fuel with
  | zero => intro queue visited; rfl
  | succ fuel ih =>
    intro queue visited
    cases queue with
    | nil => rfl
    | cons p rest =>
      by_cases hp : p ∈ visited
      · simpa [processLoop, hp] using ih rest visited
      · cases hl : w.listDir p with
        | none => simpa [processLoop, hp, hl] using ih rest (p :: visited)
        | some items =>
          have hra := runArchives_no_err w hm p temp (archiveNames items)
          simp [processLoop, hp, hl, hra, ih (rest ++ subdirPaths p items) (p :: visited)]

/-- C5 amended: after successful authentication, all remote-call failures
inside the traversal (directory listings, downloads, extractions, remote
directory creations, uploads) are caught and degrade to logged skips, and
the process exits 0 — but only provided the pre-loop repo-handle fetch
(`get_repo`/`get_repo_details`, lines 250-251) succeeds and the local
`os.makedirs` (line 193) never fails; those calls sit outside every `try`,
and their failure terminates the process with exit code 1 even though
authentication succeeded. -/
theorem c5_failures_after_prelude_never_terminate (w : World)
    (path temp : String) (fuel : Nat) (hauth : w.authOk = true)
    (hrepo : w.getRepoOk = true) (hdet : w.getDetailsOk = true)
    (hm : ∀ p, w.makedirsOk p = true) :
    mainExit w path temp fuel = 0 := by
  unfold mainExit process_path_recursively
  rw [hauth, hrepo, hdet]
  simp [processLoop_no_err w hm temp fuel [path] []]

/-- A world in which every remote call inside the traversal fails, yet the
run exits 0. -/
def wAllFail : World :=
  { wAll with listDir := fun _ => none
              downloadOk := fun _ => false
              createDirOk := fun _ => false
              zipExtract := fun _ _ => .error "io"
              tarExtract := fun _ _ => .error "io" }

theorem c5_failures_after_prelude_never_terminate_witness :
    mainExit wAllFail "/" "/tmp" 8 = 0 :=
  c5_failures_after_prelude_never_terminate wAllFail "/" "/tmp" 8 rfl rfl rfl
    (fun _ => rfl)

/-! ### Path algebra for the upload walk -/

theorem goodName_data {s : String} (h : goodName s = true) :
    s.data ≠ [] ∧ ∀ c ∈ s.data, c ≠ '/' := by
  rw [goodName, Bool.and_eq_true, List.all_eq_true] at h
  obtain ⟨h1, h2⟩ := h
  refine ⟨?_, fun c hc => by simpa using h2 c hc⟩
  intro hd
  cases s with
  | mk l =>
    have hl : l = [] := hd
    subst hl
    exact absurd h1 (by decide)

theorem strAppend_assoc (a b c : String) : (a ++ b) ++ c = a ++ (b ++ c) := by
  cases a with
  | mk la =>
    cases b with
    | mk lb =>
      cases c with
      | mk lc => simp [mk_append, List.append_assoc]

theorem str_ne_empty {s : String} (h : s.data ≠ []) : s ≠ "" := by
  intro he
  subst he
  exact h rfl

theorem pjoin_of_plain (a b : String) (hb : b.data.head? ≠ some '/') (ha : a ≠ "")
    (hal : a.data.getLast? ≠ some '/') : pjoin a b = a ++ "/" ++ b := by
  unfold pjoin
  rw [if_neg hb, if_neg ha, if_neg hal]

theorem pjoin_empty_left (b : String) (hb : b.data.head? ≠ some '/') :
    pjoin "" b = b := by
  unfold pjoin
  rw [if_neg hb, if_pos rfl]

theorem pjoin_last_slash (a b : String) (hb : b.data.head? ≠ some '/') (ha : a ≠ "")
    (hal : a.data.getLast? = some '/') : pjoin a b = a ++ b := by
  unfold pjoin
  rw [if_neg hb, if_neg ha, if_pos hal]

/-- Joining one path component at a time agrees with joining the
slash-separated relative-path string, for real entry names. -/
theorem pjoin_step (t r X : String) (hr : goodName r = true)
    (hx : X.data.head? ≠ some '/') :
    pjoin t (r ++ "/" ++ X) = pjoin (pjoin t r) X := by
  obtain ⟨hne, hns⟩ := goodName_data hr
  obtain ⟨c, cs, hcs⟩ : ∃ c cs, r.data = c :: cs := by
    cases hv : r.data with
    | nil => exact absurd hv hne
    | cons c cs => exact ⟨c, cs, rfl⟩
  have hchead : c ≠ '/' := hns c (by rw [hcs]; exact List.mem_cons_self _ _)
  have hrhead : r.data.head? ≠ some '/' := by
    rw [hcs]
    simp [hchead]
  have hrlast : r.data.getLast? ≠ some '/' := by
    rw [List.getLast?_eq_getLast r.data hne]
    intro hcon
    exact hns _ (List.getLast_mem hne) (Option.some.inj hcon)
  have hbig_head : (r ++ "/" ++ X).data.head? = some c := by
    rw [strData_append, strData_append, hcs]
    rfl
  have hbig_ne : (r ++ "/" ++ X).data.head? ≠ some '/' := by
    rw [hbig_head]
    simp [hchead]
  have hrne : r ≠ "" := str_ne_empty hne
  by_cases ht : t = ""
  · subst ht
    rw [pjoin_empty_left _ hbig_ne, pjoin_empty_left r hrhead,
      pjoin_of_plain r X hx hrne hrlast]
  · by_cases htl : t.data.getLast? = some '/'
    · rw [pjoin_last_slash t _ hbig_ne ht htl, pjoin_last_slash t r hrhead ht htl]
      have htr_ne : (t ++ r) ≠ "" :=
        str_ne_empty (by rw [strData_append]; exact List.append_ne_nil_of_right_ne_nil _ hne)
      have htr_last : (t ++ r).data.getLast? = r.data.getLast? := by
        rw [strData_append]
        exact List.getLast?_append_of_ne_nil _ hne
      rw [pjoin_of_plain (t ++ r) X hx htr_ne (by rw [htr_last]; exact hrlast)]
      simp [strAppend_assoc]
    · rw [pjoin_of_plain t _ hbig_ne ht htl, pjoin_of_plain t r hrhead ht htl]
      have h1 : (t ++ "/" ++ r) ≠ "" :=
        str_ne_empty (by rw [strData_append]; exact List.append_ne_nil_of_right_ne_nil _ hne)
      have h2 : (t ++ "/" ++ r).data.getLast? = r.data.getLast? := by
        rw [strData_append]
        exact List.getLast?_append_of_ne_nil _ hne
      rw [pjoin_of_plain (t ++ "/" ++ r) X hx h1 (by rw [h2]; exact hrlast)]
      simp [strAppend_assoc]

theorem relString_head (s : String) (rest : List String) (hs : goodName s = true) :
    (relString (s :: rest)).data.head? ≠ some '/' := by
  obtain ⟨hne, hns⟩ := goodName_data hs
  obtain ⟨c, cs, hcs⟩ : ∃ c cs, s.data = c :: cs := by
    cases hv : s.data with
    | nil => exact absurd hv hne
    | cons c cs => exact ⟨c, cs, rfl⟩
  have hchead : c ≠ '/' := hns c (by rw [hcs]; exact List.mem_cons_self _ _)
  cases rest with
  | nil =>
    rw [show relString [s] = s from rfl, hcs]
    simp [hchead]
  | cons a b =>
    rw [show relString (s :: a :: b) = s ++ "/" ++ relString (a :: b) from rfl]
    rw [strData_append, strData_append, hcs]
    simp [hchead]

theorem pjoin_relString (t r : String) (rel : List String)
    (hr : goodName r = true) (hrel : ∀ x ∈ rel, goodName x = true) :
    pjoin t (relString (r :: rel)) = List.foldl pjoin (pjoin t r) rel := by
  induction rel generalizing t r with
  | nil => rfl
  | cons s rest ih =>
    have hgs : goodName s = true := hrel s (List.mem_cons_self _ _)
    have hrest : ∀ x ∈ rest, goodName x = true :=
      fun x hx => hrel x (List.mem_cons_of_mem _ hx)
    have hstep : pjoin t (relString (r :: s :: rest)) =
        pjoin (pjoin t r) (relString (s :: rest)) := by
      rw [show relString (r :: s :: rest) = r ++ "/" ++ relString (s :: rest) from rfl]
      exact pjoin_step t r _ hr (relString_head s rest hgs)
    rw [hstep, ih (pjoin t r) s hgs hrest]
    rfl

/-- The upload directory the script computes equals the component-wise fold
of `os.path.join` over the relative path, for real entry names. -/
theorem updirFor_eq_foldl (target : String) (rel : List String)
    (h : ∀ x ∈ rel, goodName x = true) :
    updirFor target rel = List.foldl pjoin target rel := by
  cases rel with
  | nil => rfl
  | cons r rest =>
    show pjoin target (relString (r :: rest)) = _
    rw [pjoin_relString target r rest (h r (List.mem_cons_self _ _))
      (fun x hx => h x (List.mem_cons_of_mem _ hx))]
    rfl

/-! ### Membership structure of the walked tree -/

theorem wfTree_node {dirs : List (String × LocalTree)} {files : List String}
    (h : wfTree (.node dirs files) = true) :
    (∀ p ∈ dirs, goodName p.1 = true) ∧ (∀ f ∈ files, goodName f = true)
    ∧ wfChildren dirs = true := by
  simp only [wfTree, Bool.and_eq_true, List.all_eq_true] at h
  exact ⟨fun p hp => h.1.2 p hp, fun f hf => h.1.1 f hf, h.2⟩

theorem wfChildren_cons {n : String} {sub : LocalTree}
    {rest : List (String × LocalTree)}
    (h : wfChildren ((n, sub) :: rest) = true) :
    wfTree sub = true ∧ wfChildren rest = true := by
  simpa only [wfChildren, Bool.and_eq_true] using h

theorem mem_dirRelsChildren {r : List String} :
    ∀ {l : List (String × LocalTree)}, r ∈ dirRelsChildren l ↔
      ∃ n sub, (n, sub) ∈ l ∧ (r = [n] ∨ ∃ r₂, r₂ ∈ dirRels sub ∧ r = n :: r₂) := by
  intro l
  induction l with
  | nil => simp [dirRelsChildren]
  | cons a rest ih =>
    obtain ⟨n, sub⟩ := a
    simp only [dirRelsChildren, List.mem_cons, List.mem_append, List.mem_map, ih]
    constructor
    · rintro (rfl | ⟨r₂, hr₂, rfl⟩ | ⟨n₂, sub₂, hmem, hcase⟩)
      · exact ⟨n, sub, Or.inl rfl, Or.inl rfl⟩
      · exact ⟨n, sub, Or.inl rfl, Or.inr ⟨r₂, hr₂, rfl⟩⟩
      · exact ⟨n₂, sub₂, Or.inr hmem, hcase⟩
    · rintro ⟨n₂, sub₂, heq | hmem, hcase⟩
      · cases heq
        rcases hcase with rfl | ⟨r₂, hr₂, rfl⟩
        · exact Or.inl rfl
        · exact Or.inr (Or.inl ⟨r₂, hr₂, rfl⟩)
      · exact Or.inr (Or.inr ⟨n₂, sub₂, hmem, hcase⟩)

theorem mem_filePairsChildren {q : List String × String} :
    ∀ {l : List (String × LocalTree)}, q ∈ filePairsChildren l ↔
      ∃ n sub, (n, sub) ∈ l ∧ ∃ q₂, q₂ ∈ filePairs sub ∧ q = (n :: q₂.1, q₂.2) := by
  intro l
  induction l with
  | nil => simp [filePairsChildren]
  | cons a rest ih =>
    obtain ⟨n, sub⟩ := a
    simp only [filePairsChildren, List.mem_append, List.mem_map, ih]
    constructor
    · rintro (⟨q₂, hq₂, rfl⟩ | ⟨n₂, sub₂, hmem, q₂, hq₂, rfl⟩)
      · exact ⟨n, sub, List.mem_cons_self _ _, q₂, hq₂, rfl⟩
      · exact ⟨n₂, sub₂, List.mem_cons_of_mem _ hmem, q₂, hq₂, rfl⟩
    · rintro ⟨n₂, sub₂, hmem, q₂, hq₂, rfl⟩
      rcases List.mem_cons.mp hmem with heq | hmem2
      · cases heq
        exact Or.inl ⟨q₂, hq₂, rfl⟩
      · exact Or.inr ⟨n₂, sub₂, hmem2, q₂, hq₂, rfl⟩

mutual

/-- Every directory of the walked tree is created at the fold of
`os.path.join` over its relative components, and every file is uploaded into
the fold over its containing directory's relative components. -/
theorem walkEff_covers (target : String) (rel : List String) (t : LocalTree)
    (hrel : ∀ x ∈ rel, goodName x = true) (hwf : wfTree t = true) :
    (∀ r ∈ dirRels t,
      Eff.createDir (List.foldl pjoin target (rel ++ r)) ∈ walkEff target rel t)
    ∧ (∀ q ∈ filePairs t,
      Eff.upload (List.foldl pjoin target (rel ++ q.1)) q.2 ∈ walkEff target rel t) := by
  cases t with
  | node dirs files =>
    obtain ⟨hdirnames, _hfilenames, hch⟩ := wfTree_node hwf
    have hupdir : updirFor target rel = List.foldl pjoin target rel :=
      updirFor_eq_foldl target rel hrel
    constructor
    · intro r hr
      rw [show dirRels (.node dirs files) = dirRelsChildren dirs from rfl,
        mem_dirRelsChildren] at hr
      obtain ⟨n, sub, hmem, hcase⟩ := hr
      rcases hcase with rfl | ⟨r₂, hr₂, rfl⟩
      · simp only [walkEff, List.mem_append]
        left; left
        rw [List.mem_map]
        refine ⟨(n, sub), hmem, ?_⟩
        rw [hupdir, List.foldl_append]
        rfl
      · have hc := walkEffChildren_covers target rel dirs hrel hdirnames hch
        simp only [walkEff, List.mem_append]
        right
        exact hc.1 (n, sub) hmem r₂ hr₂
    · intro q hq
      rw [show filePairs (.node dirs files) =
        files.map (fun f => ([], f)) ++ filePairsChildren dirs from rfl,
        List.mem_append] at hq
      rcases hq with hq | hq
      · rw [List.mem_map] at hq
        obtain ⟨f, hf, rfl⟩ := hq
        simp only [walkEff, List.mem_append]
        left; right
        rw [List.mem_map]
        refine ⟨f, hf, ?_⟩
        rw [hupdir, List.append_nil]
      · rw [mem_filePairsChildren] at hq
        obtain ⟨n, sub, hmem, q₂, hq₂, rfl⟩ := hq
        have hc := walkEffChildren_covers target rel dirs hrel hdirnames hch
        simp only [walkEff, List.mem_append]
        right
        exact hc.2 (n, sub) hmem q₂ hq₂

theorem walkEffChildren_covers (target : String) (rel : List String)
    (l : List (String × LocalTree)) (hrel : ∀ x ∈ rel, goodName x = true)
    (hnames : ∀ p ∈ l, goodName p.1 = true) (hwf : wfChildren l = true) :
    (∀ p ∈ l, ∀ r ∈ dirRels p.2,
      Eff.createDir (List.foldl pjoin target (rel ++ p.1 :: r))
        ∈ walkEffChildren target rel l)
    ∧ (∀ p ∈ l, ∀ q ∈ filePairs p.2,
      Eff.upload (List.foldl pjoin target (rel ++ p.1 :: q.1)) q.2
        ∈ walkEffChildren target rel l) := by
  cases l with
  | nil => simp
  | cons a rest =>
    obtain ⟨n, sub⟩ := a
    obtain ⟨hsub, hrest⟩ := wfChildren_cons hwf
    have hgn : goodName n = true := hnames (n, sub) (List.mem_cons_self _ _)
    have hrel2 : ∀ x ∈ rel ++ [n], goodName x = true := by
      intro x hx
      rcases List.mem_append.mp hx with hx | hx
      · exact hrel x hx
      · rw [List.mem_singleton] at hx
        subst hx
        exact hgn
    have hsubcov := walkEff_covers target (rel ++ [n]) sub hrel2 hsub
    have hrestcov := walkEffChildren_covers target rel rest hrel
      (fun p hp => hnames p (List.mem_cons_of_mem _ hp)) hrest
    have hunfold : walkEffChildren target rel ((n, sub) :: rest) =
        walkEff target (rel ++ [n]) sub ++ walkEffChildren target rel rest := rfl
    constructor
    · intro p hp r hr
      rcases List.mem_cons.mp hp with heq | hp2
      · cases heq
        have hin := hsubcov.1 r hr
        rw [show (rel ++ [n]) ++ r = rel ++ n :: r from by simp] at hin
        rw [hunfold]
        exact List.mem_append_left _ hin
      · rw [hunfold]
        exact List.mem_append_right _ (hrestcov.1 p hp2 r hr)
    · intro p hp q hq
      rcases List.mem_cons.mp hp with heq | hp2
      · cases heq
        have hin := hsubcov.2 q hq
        rw [show (rel ++ [n]) ++ q.1 = rel ++ n :: q.1 from by simp] at hin
        rw [hunfold]
        exact List.mem_append_left _ hin
      · rw [hunfold]
        exact List.mem_append_right _ (hrestcov.2 p hp2 q hq)

end

/-! ### Claim C7 -/

/-- C7: when an archive in remote directory `d` with target name
`target = get_archive_folder_name n` reaches the upload phase, the
extraction root itself is placed at `d/target` (the pre-walk directory
creation), every extracted subdirectory at relative component path `r` is
created at the fold of `os.path.join` over `d/target` and `r`, and every
extracted file in the directory at relative path `rs` is uploaded into that
directory's remote image — hence placed at `d/target/rs/name`, as the final
join equation states. -/
theorem c7_upload_mirrors_relative_paths (w : World) (d n t : String)
    (items : List Entry) (hlist : w.listDir d = some items)
    (hskip : (items.map Entry.name).contains (get_archive_folder_name n) = false)
    (hdl : w.downloadOk (pjoin d n) = true)
    (hmk : w.makedirsOk (pjoin t (get_archive_folder_name n)) = true)
    (hex : extract_archive w (archiveLocalPath t n)
      (pjoin t (get_archive_folder_name n)) = true)
    (hcd : w.createDirOk (pjoin d (get_archive_folder_name n)) = true)
    (hwf : wfTree (w.localTree (pjoin t (get_archive_folder_name n))) = true) :
    ∃ tr, handle_archive_file w d n t = .ok tr
    ∧ Eff.createDir (pjoin d (get_archive_folder_name n)) ∈ tr
    ∧ (∀ r ∈ dirRels (w.localTree (pjoin t (get_archive_folder_name n))),
        Eff.createDir
          (List.foldl pjoin (pjoin d (get_archive_folder_name n)) r) ∈ tr)
    ∧ (∀ q ∈ filePairs (w.localTree (pjoin t (get_archive_folder_name n))),
        Eff.upload
          (List.foldl pjoin (pjoin d (get_archive_folder_name n)) q.1) q.2 ∈ tr
        ∧ pjoin (List.foldl pjoin (pjoin d (get_archive_folder_name n)) q.1) q.2
          = List.foldl pjoin (pjoin d (get_archive_folder_name n)) (q.1 ++ [q.2])) := by
  have hskip2 : ∀ x ∈ items, ¬x.name = get_archive_folder_name n := by
    simpa using hskip
  have hhandle : handle_archive_file w d n t =
      .ok ([Eff.download (pjoin d n) (archiveLocalPath t n),
            Eff.extract (archiveLocalPath t n) (pjoin t (get_archive_folder_name n)),
            Eff.createDir (pjoin d (get_archive_folder_name n))]
           ++ walkEff (pjoin d (get_archive_folder_name n)) []
                (w.localTree (pjoin t (get_archive_folder_name n)))) := by
    unfold handle_archive_file
    rw [hlist]
    simp [hdl, hmk, hcd, hex]
    exact hskip2
  have hcov := walkEff_covers (pjoin d (get_archive_folder_name n)) []
    (w.localTree (pjoin t (get_archive_folder_name n)))
    (fun x hx => absurd hx (List.not_mem_nil x)) hwf
  refine ⟨_, hhandle, ?_, ?_, ?_⟩
  · simp
  · intro r hr
    have hin := hcov.1 r hr
    rw [List.nil_append] at hin
    exact List.mem_append_right _ hin
  · intro q hq
    refine ⟨?_, ?_⟩
    · have hin := hcov.2 q hq
      rw [List.nil_append] at hin
      exact List.mem_append_right _ hin
    · rw [List.foldl_append]
      rfl

/-- A world whose extraction produces the tree `sub/` (containing `f2`) and
`f1` at the root. -/
def wTree : World :=
  { wAll with localTree := fun _ => .node [("sub", .node [] ["f2"])] ["f1"] }

theorem c7_upload_mirrors_relative_paths_witness :
    ∃ tr, handle_archive_file wTree "/data" "report.zip" "/tmp" = .ok tr
    ∧ Eff.createDir (pjoin "/data" (get_archive_folder_name "report.zip")) ∈ tr
    ∧ (∀ r ∈ dirRels (wTree.localTree
          (pjoin "/tmp" (get_archive_folder_name "report.zip"))),
        Eff.createDir (List.foldl pjoin
          (pjoin "/data" (get_archive_folder_name "report.zip")) r) ∈ tr)
    ∧ (∀ q ∈ filePairs (wTree.localTree
          (pjoin "/tmp" (get_archive_folder_name "report.zip"))),
        Eff.upload (List.foldl pjoin
          (pjoin "/data" (get_archive_folder_name "report.zip")) q.1) q.2 ∈ tr
        ∧ pjoin (List.foldl pjoin
            (pjoin "/data" (get_archive_folder_name "report.zip")) q.1) q.2
          = List.foldl pjoin
              (pjoin "/data" (get_archive_folder_name "report.zip"))
              (q.1 ++ [q.2])) :=
  c7_upload_mirrors_relative_paths wTree "/data" "report.zip" "/tmp" []
    rfl (by decide) rfl rfl (by decide) rfl (by decide)
